import Mathlib

/-!
# Verification of the unipax graph-ingestion layer

Shallow embedding of `src/unipax/graph.py` (`read_sif`, `read_lemon`) and of
the format dispatcher `UniPaxRestGraphEndpoint.query` in `src/unipax/api.py`,
together with theorems checking the specification's claims about them.

Modelling conventions:
* Python strings are Lean `String`s (tokenisation works on `String.toList`).
* Python exceptions that the modelled code can actually raise are the
  constructors of `PyError`; a call that raises is `Except.error`.
* The Python `set` named `nodes` is modelled by the list of its elements in
  insertion order (`SifAcc.nodes`); the enumeration `list(nodes)` at line 92
  of graph.py is a hash-table iteration whose order CPython does not specify,
  so it is modelled by an explicit enumeration parameter `enum`, constrained
  in theorems to produce a permutation of the set's elements.
* File I/O (`open`, `download`, `os.remove`) is outside the model: the parser
  is applied directly to the downloaded text content.
-/

namespace Unipax

/-- Python's `\s` for ASCII text: the whitespace class used by
`re.split('\s+', line)` at graph.py line 83. -/
def isSpace (c : Char) : Bool :=
  c = ' ' || c = '\t' || c = '\n' || c = '\r' || c = '\x0b' || c = '\x0c'

/-- Splitter loop: `cur` is the current (possibly empty) run of
non-whitespace characters; a whitespace character closes the run, which is
emitted only when non-empty. -/
def wordsAux : List Char → List Char → List (List Char)
  | [], cur => if cur = [] then [] else [cur]
  | c :: cs, cur =>
    if isSpace c then
      if cur = [] then wordsAux cs [] else cur :: wordsAux cs []
    else wordsAux cs (cur ++ [c])

/-- Maximal runs of non-whitespace characters, in order: the non-empty
fields of `re.split('\s+', line)`. -/
def words (cs : List Char) : List (List Char) :=
  wordsAux cs []

/-- graph.py line 83: `[item.strip() for item in re.split('\s+', line) if item]`.
The `strip` is a no-op because the non-empty fields of a `\s+` split contain
no whitespace. -/
def tokenize (line : String) : List String :=
  (words line.toList).map String.mk

/-- Split a character list at newline characters, keeping empty segments
(the behaviour of `String.splitOn "\n"`). -/
def splitNlAux : List Char → List Char → List (List Char)
  | [], cur => [cur]
  | c :: cs, cur =>
    if c = '\n' then cur :: splitNlAux cs [] else splitNlAux cs (cur ++ [c])

/-- Python's line iteration over the file content (`for line in sif`):
the content split at newlines, without a phantom empty line after a trailing
newline.  The newline terminators themselves are whitespace, hence invisible
to `tokenize`, so they are not re-attached. -/
def pyLines (content : String) : List String :=
  let parts := (splitNlAux content.toList []).map String.mk
  if parts.getLast? = some "" then parts.dropLast else parts

/-- Exceptions the modelled Python code can raise. -/
inductive PyError where
  /-- `UnboundLocalError`: a local variable is referenced before assignment
  (`source` at graph.py line 85, `graph` at the end of `query`). -/
  | unboundLocal : PyError
  /-- `IndexError`: `items[0]` at graph.py line 87 on a zero-token line. -/
  | indexError : PyError
deriving DecidableEq, Repr

/-- Loop state of `read_sif` (graph.py lines 78-91): the node set (as its
insertion-ordered element list), the edge and interaction lists, and the
Python local variable `source`, which persists across iterations and is
`none` until first assigned. -/
structure SifAcc where
  nodes : List String
  edges : List (String × String)
  interactions : List String
  sourceVar : Option String
deriving DecidableEq, Repr

/-- `nodes.add(x)` on a set modelled as its insertion-ordered element list. -/
def insertNode (nodes : List String) (x : String) : List String :=
  if x ∈ nodes then nodes else nodes ++ [x]

/-- `nodes |= {t for t in targets}`: add each target (set contents do not
depend on the comprehension's iteration order). -/
def insertNodes (nodes : List String) (targets : List String) : List String :=
  targets.foldl insertNode nodes

/-- One iteration of the `for line in sif` loop, graph.py lines 82-91. -/
def processLine (acc : SifAcc) (line : String) : Except PyError SifAcc :=
  let items := tokenize line
  if items.length = 1 then
    -- line 85: `nodes.add(source)` — note: `source`, not `items[0]`.
    match acc.sourceVar with
    | none => .error .unboundLocal
    | some s => .ok ⟨insertNode acc.nodes s, acc.edges, acc.interactions, acc.sourceVar⟩
  else
    match items with
    | [] => .error .indexError   -- line 87: `items[0]` on an empty list
    | source :: rest =>
      match rest with
      | [] => .error .indexError -- unreachable: length-1 lists took the branch above
      | interaction :: targets =>
        .ok ⟨insertNodes (insertNode acc.nodes source) targets,
             acc.edges ++ targets.map (fun t => (source, t)),
             acc.interactions ++ List.replicate targets.length interaction,
             some source⟩

/-- The whole loop, graph.py lines 82-91: a raised exception aborts the call,
so no partial state survives an error. -/
def runLines (acc : SifAcc) : List String → Except PyError SifAcc
  | [] => .ok acc
  | l :: ls =>
    match processLine acc l with
    | .error e => .error e
    | .ok acc2 => runLines acc2 ls

/-- State after the input pass of `read_sif` over the given text content. -/
def sifAccOf (content : String) : Except PyError SifAcc :=
  runLines ⟨[], [], [], none⟩ (pyLines content)

/-- The igraph result of `read_sif`, graph.py lines 95-100: a directedness
flag, the vertex count, the vertex attribute `name`, the index edge list and
the edge attribute `interaction`. -/
structure Graph where
  directed : Bool
  n : Nat
  names : List String
  edges : List (Nat × Nat)
  interactions : List String
deriving DecidableEq, Repr

/-- graph.py lines 92-100 given the node-set enumeration produced by
`list(nodes)`: `node2index` maps a name to its position in that list
(`nodes.index(node)`), edges are re-expressed through it, and the attribute
lists are attached. -/
def mkGraph (enum : List String → List String) (directed : Bool)
    (acc : SifAcc) : Graph :=
  let nodes := enum acc.nodes
  ⟨directed, nodes.length, nodes,
   acc.edges.map (fun e => (nodes.indexOf e.1, nodes.indexOf e.2)),
   acc.interactions⟩

/-- `read_sif` (graph.py lines 63-100) applied to text content, parameterised
by the unspecified set-enumeration order and the `directed` keyword. -/
def read_sif (enum : List String → List String) (directed : Bool)
    (content : String) : Except PyError Graph :=
  (sifAccOf content).map (mkGraph enum directed)

/-- `read_lemon` (graph.py lines 28-45): the body is `pass`, so the call
returns Python `None`, modelled as `Option.none`. -/
def read_lemon : Option Graph := none

/-- Result of `UniPaxRestGraphEndpoint.query`: a graph parsed by `read_sif`,
an opaque graph from a delegate reader (`read_gml` / `read_graphml`), or
Python `None` (from `read_lemon`). -/
inductive QueryResult where
  | graph : Graph → QueryResult
  | delegate : String → QueryResult
  | pyNone : QueryResult
deriving DecidableEq, Repr

/-- `UniPaxRestGraphEndpoint.query` (api.py lines 328-341), restricted to its
format dispatch on the downloaded content: `fmt` is `params.get('format')`.
No branch of the `if/elif` chain assigns `graph` for an unrecognised format,
so `return graph` raises `UnboundLocalError`. -/
def query (enum : List String → List String) (fmt : Option String)
    (content : String) : Except PyError QueryResult :=
  match fmt with
  | none => .ok (.delegate "gml")
  | some f =>
    if f = "gml" then .ok (.delegate "gml")
    else if f = "graphml" then .ok (.delegate "graphml")
    else if f = "lemon" then
      match read_lemon with
      | none => .ok .pyNone
      | some g => .ok (.graph g)
    else if f = "sif" then (read_sif enum true content).map .graph
    else .error .unboundLocal

/-- The targets (`items[2:]`) a line contributes. -/
def lineTargets (line : String) : List String :=
  match tokenize line with
  | _ :: _ :: ts => ts
  | _ => []

/-- The name-level edges a line contributes (graph.py line 90). -/
def lineStrEdges (line : String) : List (String × String) :=
  match tokenize line with
  | s :: _ :: ts => ts.map (fun t => (s, t))
  | _ => []

/-- The interaction labels a line contributes (graph.py line 91). -/
def lineLabels (line : String) : List String :=
  match tokenize line with
  | _ :: r :: ts => List.replicate ts.length r
  | _ => []

/-! ## Tokenizer lemmas -/

theorem wordsAux_flatten (cs : List Char) :
    ∀ cur, (wordsAux cs cur).flatten = cur ++ cs.filter (fun c => !isSpace c) := by
  induction cs with
  | nil =>
    intro cur
    by_cases h : cur = [] <;> simp [wordsAux, h]
  | cons c cs ih =>
    intro cur
    by_cases hs : isSpace c
    · by_cases hc : cur = [] <;>
        simp [wordsAux, hs, hc, ih, List.filter_cons]
    · simp [wordsAux, hs, ih (cur ++ [c]), List.filter_cons, List.append_assoc]

theorem wordsAux_ne_nil (cs : List Char) :
    ∀ cur w, w ∈ wordsAux cs cur → w ≠ [] := by
  induction cs with
  | nil =>
    intro cur w hw
    by_cases h : cur = [] <;> simp [wordsAux, h] at hw
    simp [hw, h]
  | cons c cs ih =>
    intro cur w hw
    by_cases hs : isSpace c
    · by_cases hc : cur = []
      · exact ih [] w (by simpa [wordsAux, hs, hc] using hw)
      · rcases (by simpa [wordsAux, hs, hc] using hw : w = cur ∨ w ∈ wordsAux cs []) with h | h
        · simp [h, hc]
        · exact ih [] w h
    · exact ih (cur ++ [c]) w (by simpa [wordsAux, hs] using hw)

theorem wordsAux_no_space (cs : List Char) :
    ∀ cur, (∀ c ∈ cur, isSpace c = false) →
      ∀ w ∈ wordsAux cs cur, ∀ c ∈ w, isSpace c = false := by
  induction cs with
  | nil =>
    intro cur hcur w hw
    by_cases h : cur = [] <;> simp [wordsAux, h] at hw
    subst hw; exact hcur
  | cons c cs ih =>
    intro cur hcur w hw
    by_cases hs : isSpace c
    · by_cases hc : cur = []
      · exact ih [] (by simp) w (by simpa [wordsAux, hs, hc] using hw)
      · rcases (by simpa [wordsAux, hs, hc] using hw : w = cur ∨ w ∈ wordsAux cs []) with h | h
        · subst h; exact hcur
        · exact ih [] (by simp) w h
    · refine ih (cur ++ [c]) ?_ w (by simpa [wordsAux, hs] using hw)
      intro d hd
      rcases List.mem_append.mp hd with h | h
      · exact hcur d h
      · simp only [List.mem_singleton] at h
        subst h
        exact Bool.eq_false_iff.mpr hs

theorem wordsAux_eq_nil_iff (cs : List Char) :
    ∀ cur, wordsAux cs cur = [] ↔ (cur = [] ∧ cs.all isSpace = true) := by
  induction cs with
  | nil =>
    intro cur
    by_cases h : cur = [] <;> simp [wordsAux, h]
  | cons c cs ih =>
    intro cur
    by_cases hs : isSpace c
    · by_cases hc : cur = [] <;> simp [wordsAux, hs, hc, ih]
    · simp [wordsAux, hs, ih (cur ++ [c])]

theorem toList_mk (w : List Char) : (String.mk w).toList = w := rfl

theorem mk_eq_empty_iff (w : List Char) : String.mk w = "" ↔ w = [] := by
  constructor
  · intro h
    exact congrArg String.data h
  · intro h
    subst h
    rfl

/-- **C8.** The tokenizer is a total function that returns, in order, exactly
the maximal whitespace-free runs of the line: every token is non-empty and
contains no whitespace character; the token list is empty exactly when the
line is all whitespace (in particular on a blank line); and the tokens
concatenated recover every non-whitespace character of the line in order, so
leading/trailing whitespace contributes nothing. -/
theorem tokenize_splits_on_whitespace_runs (s : String) :
    ((tokenize s).all (fun t => !(t == "") && t.toList.all (fun c => !isSpace c)) = true) ∧
    ((tokenize s).isEmpty = s.toList.all isSpace) ∧
    ((tokenize s).flatMap String.toList = s.toList.filter (fun c => !isSpace c)) := by
  refine ⟨?_, ?_, ?_⟩
  · rw [List.all_eq_true]
    intro t ht
    rcases List.mem_map.mp ht with ⟨w, hw, rfl⟩
    have h1 : w ≠ [] := wordsAux_ne_nil s.toList [] w hw
    have h2 : ∀ c ∈ w, isSpace c = false :=
      wordsAux_no_space s.toList [] (by simp) w hw
    rw [Bool.and_eq_true]
    constructor
    · rw [Bool.not_eq_true']
      exact (Bool.eq_false_iff).mpr
        (fun hbeq => h1 ((mk_eq_empty_iff w).mp (beq_iff_eq.mp hbeq)))
    · rw [toList_mk, List.all_eq_true]
      intro c hc
      simp [h2 c hc]
  · have hiff : (tokenize s = []) ↔ s.toList.all isSpace = true := by
      constructor
      · intro h
        have hw : wordsAux s.toList [] = [] :=
          List.map_eq_nil_iff.mp (by rwa [tokenize, words] at h)
        exact ((wordsAux_eq_nil_iff s.toList []).mp hw).2
      · intro h
        rw [tokenize, words, (wordsAux_eq_nil_iff s.toList []).mpr ⟨rfl, h⟩]
        rfl
    cases hb : s.toList.all isSpace with
    | true =>
      rw [List.isEmpty_iff]
      exact hiff.mpr hb
    | false =>
      rw [List.isEmpty_eq_false]
      intro hc
      rw [hiff.mp hc] at hb
      exact Bool.noConfusion hb
  · have hfl : (tokenize s).flatMap String.toList = (wordsAux s.toList []).flatten := by
      rw [tokenize, words, List.flatMap_map, List.flatten_eq_flatMap]
      rfl
    rw [hfl, wordsAux_flatten s.toList []]
    rfl

/-! ## SIF loop lemmas -/

theorem mem_insertNode {nodes : List String} {x y : String} :
    x ∈ insertNode nodes y ↔ x ∈ nodes ∨ x = y := by
  by_cases h : y ∈ nodes
  · simp only [insertNode, if_pos h]
    constructor
    · exact Or.inl
    · rintro (h1 | rfl)
      · exact h1
      · exact h
  · simp [insertNode, h]

theorem insertNode_nodup {nodes : List String} {y : String} (h : nodes.Nodup) :
    (insertNode nodes y).Nodup := by
  by_cases hy : y ∈ nodes
  · simpa [insertNode, hy] using h
  · rw [insertNode, if_neg hy, List.nodup_append]
    refine ⟨h, List.nodup_singleton y, ?_⟩
    intro a ha hay
    rw [List.mem_singleton] at hay
    subst hay
    exact hy ha

theorem mem_insertNodes {ts : List String} : ∀ {nodes : List String} {x : String},
    x ∈ insertNodes nodes ts ↔ x ∈ nodes ∨ x ∈ ts := by
  induction ts with
  | nil => intro nodes x; simp [insertNodes]
  | cons t ts ih =>
    intro nodes x
    have hstep : insertNodes nodes (t :: ts) = insertNodes (insertNode nodes t) ts := rfl
    rw [hstep, ih, mem_insertNode, List.mem_cons]
    tauto

theorem insertNodes_nodup {ts : List String} : ∀ {nodes : List String},
    nodes.Nodup → (insertNodes nodes ts).Nodup := by
  induction ts with
  | nil => intro nodes h; exact h
  | cons t ts ih => intro nodes h; exact ih (insertNode_nodup h)

/-- Successful outcomes of one loop iteration: either a one-token line with
the local `source` already set (re-registering that stale `source`), or a
line with at least two tokens. -/
theorem processLine_ok_cases {acc b : SifAcc} {l : String}
    (h : processLine acc l = .ok b) :
    (∃ s s0, tokenize l = [s] ∧ acc.sourceVar = some s0 ∧
      b = ⟨insertNode acc.nodes s0, acc.edges, acc.interactions, acc.sourceVar⟩) ∨
    (∃ s r ts, tokenize l = s :: r :: ts ∧
      b = ⟨insertNodes (insertNode acc.nodes s) ts,
           acc.edges ++ ts.map (fun t => (s, t)),
           acc.interactions ++ List.replicate ts.length r, some s⟩) := by
  rcases htok : tokenize l with _ | ⟨s, _ | ⟨r, ts⟩⟩
  · simp [processLine, htok] at h
  · rcases hsv : acc.sourceVar with _ | s0
    · simp [processLine, htok, hsv] at h
    · left
      refine ⟨s, s0, rfl, rfl, ?_⟩
      simp [processLine, htok, hsv] at h
      exact h.symm
  · right
    refine ⟨s, r, ts, rfl, ?_⟩
    simp [processLine, htok] at h
    exact h.symm

/-- What one successful iteration does to the accumulator: it appends the
line's edges and labels and only grows the node set, preserving its
well-formedness invariants. -/
theorem processLine_ok_spec {acc b : SifAcc} {l : String}
    (h : processLine acc l = .ok b) :
    b.edges = acc.edges ++ lineStrEdges l ∧
    b.interactions = acc.interactions ++ lineLabels l ∧
    (∀ x ∈ acc.nodes, x ∈ b.nodes) ∧
    (acc.nodes.Nodup → b.nodes.Nodup) ∧
    ((∀ p ∈ acc.edges, p.1 ∈ acc.nodes ∧ p.2 ∈ acc.nodes) →
      ∀ p ∈ b.edges, p.1 ∈ b.nodes ∧ p.2 ∈ b.nodes) ∧
    ((∀ s, acc.sourceVar = some s → s ∈ acc.nodes) →
      ∀ s, b.sourceVar = some s → s ∈ b.nodes) := by
  rcases processLine_ok_cases h with ⟨s, s0, htok, hsv, rfl⟩ | ⟨s, r, ts, htok, rfl⟩
  · refine ⟨by simp [lineStrEdges, htok], by simp [lineLabels, htok], ?_, ?_, ?_, ?_⟩
    · intro x hx
      exact mem_insertNode.mpr (Or.inl hx)
    · exact insertNode_nodup
    · intro hinv p hp
      exact ⟨mem_insertNode.mpr (Or.inl (hinv p hp).1),
             mem_insertNode.mpr (Or.inl (hinv p hp).2)⟩
    · intro hinv t ht
      exact mem_insertNode.mpr (Or.inl (hinv t ht))
  · refine ⟨by simp [lineStrEdges, htok], by simp [lineLabels, htok], ?_, ?_, ?_, ?_⟩
    · intro x hx
      exact mem_insertNodes.mpr (Or.inl (mem_insertNode.mpr (Or.inl hx)))
    · intro hnd
      exact insertNodes_nodup (insertNode_nodup hnd)
    · intro hinv p hp
      rcases List.mem_append.mp hp with hold | hnew
      · exact ⟨mem_insertNodes.mpr (Or.inl (mem_insertNode.mpr (Or.inl (hinv p hold).1))),
               mem_insertNodes.mpr (Or.inl (mem_insertNode.mpr (Or.inl (hinv p hold).2)))⟩
      · rcases List.mem_map.mp hnew with ⟨t, ht, rfl⟩
        exact ⟨mem_insertNodes.mpr (Or.inl (mem_insertNode.mpr (Or.inr rfl))),
               mem_insertNodes.mpr (Or.inr ht)⟩
    · intro _ s1 hs1
      rw [Option.some.injEq] at hs1
      subst hs1
      exact mem_insertNodes.mpr (Or.inl (mem_insertNode.mpr (Or.inr rfl)))

/-- The loop over a successful run: final edges and labels are the
concatenation, in line order, of each line's contribution, and the node-set
invariants hold at the end. -/
theorem runLines_ok_spec (ls : List String) : ∀ {acc b : SifAcc},
    runLines acc ls = .ok b →
    b.edges = acc.edges ++ ls.flatMap lineStrEdges ∧
    b.interactions = acc.interactions ++ ls.flatMap lineLabels ∧
    (∀ x ∈ acc.nodes, x ∈ b.nodes) ∧
    (acc.nodes.Nodup → b.nodes.Nodup) ∧
    ((∀ p ∈ acc.edges, p.1 ∈ acc.nodes ∧ p.2 ∈ acc.nodes) →
      ∀ p ∈ b.edges, p.1 ∈ b.nodes ∧ p.2 ∈ b.nodes) ∧
    ((∀ s, acc.sourceVar = some s → s ∈ acc.nodes) →
      ∀ s, b.sourceVar = some s → s ∈ b.nodes) := by
  induction ls with
  | nil =>
    intro acc b h
    rw [runLines] at h
    rw [Except.ok.injEq] at h
    subst h
    simp
  | cons l ls ih =>
    intro acc b h
    rw [runLines] at h
    rcases hp : processLine acc l with e | acc2
    · rw [hp] at h
      exact Except.noConfusion h
    · rw [hp] at h
      obtain ⟨he, hi, hmono, hnd, hedge, hsv⟩ := processLine_ok_spec hp
      obtain ⟨he2, hi2, hmono2, hnd2, hedge2, hsv2⟩ := ih h
      refine ⟨?_, ?_, ?_, ?_, ?_, ?_⟩
      · rw [he2, he, List.flatMap_cons, List.append_assoc]
      · rw [hi2, hi, List.flatMap_cons, List.append_assoc]
      · exact fun x hx => hmono2 x (hmono x hx)
      · exact fun hx => hnd2 (hnd hx)
      · exact fun hinv => hedge2 (hedge hinv)
      · exact fun hinv => hsv2 (hsv hinv)

/-- State after a successful full pass: edges and labels are the per-line
contributions in order, the registered node list has no duplicates, and
every edge endpoint is a registered node. -/
theorem sifAccOf_spec {content : String} {acc : SifAcc}
    (h : sifAccOf content = .ok acc) :
    acc.edges = (pyLines content).flatMap lineStrEdges ∧
    acc.interactions = (pyLines content).flatMap lineLabels ∧
    acc.nodes.Nodup ∧
    (∀ p ∈ acc.edges, p.1 ∈ acc.nodes ∧ p.2 ∈ acc.nodes) := by
  obtain ⟨he, hi, _, hnd, hedge, _⟩ := runLines_ok_spec (pyLines content) h
  refine ⟨by simpa using he, by simpa using hi, hnd (by simp), ?_⟩
  exact hedge (by simp)

/-- Inversion for `read_sif`: a successful parse is exactly a successful
input pass followed by `mkGraph`. -/
theorem read_sif_ok_iff {enum : List String → List String} {d : Bool}
    {content : String} {g : Graph} :
    read_sif enum d content = .ok g ↔
      ∃ acc, sifAccOf content = .ok acc ∧ g = mkGraph enum d acc := by
  rw [read_sif]
  cases h : sifAccOf content <;> simp [Except.map, eq_comm]

theorem mkGraph_names (enum : List String → List String) (d : Bool) (acc : SifAcc) :
    (mkGraph enum d acc).names = enum acc.nodes := rfl

theorem mkGraph_edges (enum : List String → List String) (d : Bool) (acc : SifAcc) :
    (mkGraph enum d acc).edges =
      acc.edges.map (fun e => ((enum acc.nodes).indexOf e.1,
                               (enum acc.nodes).indexOf e.2)) := rfl

theorem mkGraph_interactions (enum : List String → List String) (d : Bool) (acc : SifAcc) :
    (mkGraph enum d acc).interactions = acc.interactions := rfl

theorem lineStrEdges_length (l : String) :
    (lineStrEdges l).length = (lineTargets l).length := by
  rcases htok : tokenize l with _ | ⟨s, _ | ⟨r, ts⟩⟩ <;>
    simp [lineStrEdges, lineTargets, htok]

theorem lineLabels_length (l : String) :
    (lineLabels l).length = (lineTargets l).length := by
  rcases htok : tokenize l with _ | ⟨s, _ | ⟨r, ts⟩⟩ <;>
    simp [lineLabels, lineTargets, htok]

/-! ## Claim theorems -/

/-- **C1.** The claim says a one-token line registers that token as a vertex
and that input `"A"` yields one vertex named `A`.  The code instead executes
`nodes.add(source)` (graph.py line 85) where `source` is the loop-carried
local from the last multi-token line: on input `"A"` no such line exists and
the call raises `UnboundLocalError`; after `"B pp C"`, the line `"A"`
re-adds `B` and the token `A` is never registered.  The comment
`# isolated nodes` and the spec agree on the intent, so this is a code bug;
this theorem evaluates the code at the failing inputs. -/
theorem read_sif_one_token_line_uses_stale_source :
    read_sif id true "A" = Except.error PyError.unboundLocal ∧
    sifAccOf "B pp C\nA" =
      Except.ok ⟨["B", "C"], [("B", "C")], ["pp"], some "B"⟩ ∧
    tokenize "A" = ["A"] :=
  ⟨rfl, rfl, rfl⟩

/-- **C2 counterexample.** The claim says an input containing a two-token
line fails with `MalformedRecord`.  On `"A pp\nB qq C"` the code raises
nothing: the tuple unpacking at graph.py line 87 gives the two-token line an
empty target list, so parsing succeeds with three vertices and one edge. -/
theorem read_sif_two_token_line_no_error_cex :
    read_sif id true "A pp\nB qq C" =
      Except.ok ⟨true, 3, ["A", "B", "C"], [(1, 2)], ["qq"]⟩ :=
  rfl

/-- **C2 amended.** A line that tokenizes to exactly two tokens is silently
accepted as a source-with-no-targets record: its first token is registered
as a vertex, no edge and no label are emitted, the local `source` is updated
to the first token, and no error of any kind is raised. -/
theorem processLine_two_token_line_silently_accepted
    (acc : SifAcc) (line : String) (s r : String)
    (h : tokenize line = [s, r]) :
    processLine acc line =
      Except.ok ⟨insertNode acc.nodes s, acc.edges, acc.interactions, some s⟩ := by
  simp [processLine, h, insertNodes]

theorem processLine_two_token_line_silently_accepted_witness :
    tokenize "A pp" = ["A", "pp"] ∧
    processLine ⟨[], [], [], none⟩ "A pp" =
      Except.ok ⟨["A"], [], [], some "A"⟩ :=
  ⟨rfl, processLine_two_token_line_silently_accepted ⟨[], [], [], none⟩ "A pp" "A" "pp" rfl⟩

/-- **C3 counterexample.** The claim says each vertex's index is its
zero-based first-seen position.  The code enumerates the Python `set`
`nodes` (graph.py line 92), whose iteration order is hash-dependent and
unspecified; `List.reverse` is one admissible enumeration (a permutation of
the set's elements), and under it the input `"A pp B"` — whose first-seen
order is `A`, `B` — yields the vertex list `["B", "A"]`, assigning `A`
index 1, not 0. -/
theorem read_sif_vertex_index_not_first_seen_cex :
    List.Perm (List.reverse ["A", "B"]) ["A", "B"] ∧
    sifAccOf "A pp B" = Except.ok ⟨["A", "B"], [("A", "B")], ["pp"], some "A"⟩ ∧
    read_sif List.reverse true "A pp B" =
      Except.ok ⟨true, 2, ["B", "A"], [(1, 0)], ["pp"]⟩ ∧
    (["B", "A"] : List String).indexOf "A" = 1 := by
  exact ⟨by decide, rfl, rfl, by decide⟩

/-- **C3 amended.** For every admissible enumeration of the node set (any
permutation of its elements — the code guarantees no more), the vertex name
list of a successful parse is a permutation of the registered identifiers in
first-seen registration order (`acc.nodes`) and has no duplicates, so index
assignment is a bijection; the first-seen order itself, and identical
assignments across runs with different set enumerations, are not
guaranteed. -/
theorem read_sif_names_enumerate_registered_vertices
    (enum : List String → List String) (henum : ∀ l, List.Perm (enum l) l)
    (d : Bool) (content : String) (acc : SifAcc) (g : Graph)
    (hacc : sifAccOf content = .ok acc)
    (hg : read_sif enum d content = .ok g) :
    List.Perm g.names acc.nodes ∧ g.names.Nodup := by
  rcases read_sif_ok_iff.mp hg with ⟨acc2, hacc2, rfl⟩
  rw [hacc, Except.ok.injEq] at hacc2
  subst hacc2
  obtain ⟨_, _, hnd, _⟩ := sifAccOf_spec hacc
  rw [mkGraph_names]
  exact ⟨henum acc.nodes, ((henum acc.nodes).nodup_iff).mpr hnd⟩

theorem read_sif_names_enumerate_registered_vertices_witness :
    List.Perm (["A", "B"] : List String) ["A", "B"] ∧
    (["A", "B"] : List String).Nodup :=
  read_sif_names_enumerate_registered_vertices id (fun l => List.Perm.refl l)
    true "A pp B" ⟨["A", "B"], [("A", "B")], ["pp"], some "A"⟩
    ⟨true, 2, ["A", "B"], [(0, 1)], ["pp"]⟩ rfl rfl

/-- **C4.** The claim says requesting format `"lemon"` fails with
`UnsupportedFormat` and never silently returns a null result.  The code
calls `read_lemon`, whose body is `pass` (graph.py line 45), so for every
input content the dispatcher silently returns Python `None` — contradicting
`read_lemon`'s own docstring, which promises an `ig.Graph`.  This theorem
evaluates the code at the failing input. -/
theorem query_lemon_silently_returns_none
    (enum : List String → List String) (content : String) :
    query enum (some "lemon") content = Except.ok QueryResult.pyNone :=
  rfl

/-- **C5 counterexample.** The claim says an unrecognised format tag fails
with a typed `UnknownFormat` result.  For the tag `"gmx"` (a format the
endpoint docstrings advertise) no branch of the `if/elif` chain in `query`
assigns `graph`, so `return graph` raises `UnboundLocalError` — an
accidental exception, not a typed `UnknownFormat` result. -/
theorem query_unknown_format_cex :
    query id (some "gmx") "A pp B" = Except.error PyError.unboundLocal :=
  rfl

/-- **C5 amended.** For every format tag outside
`{"sif", "gml", "graphml", "lemon"}`, the dispatcher fails by raising
`UnboundLocalError` (the result variable is never assigned); no typed
`UnknownFormat` error exists in the code. -/
theorem query_unknown_format_unbound_local
    (enum : List String → List String) (f content : String)
    (h1 : f ≠ "gml") (h2 : f ≠ "graphml") (h3 : f ≠ "lemon") (h4 : f ≠ "sif") :
    query enum (some f) content = Except.error PyError.unboundLocal := by
  simp [query, h1, h2, h3, h4]

theorem query_unknown_format_unbound_local_witness :
    query id (some "xml") "" = Except.error PyError.unboundLocal :=
  query_unknown_format_unbound_local id "xml" ""
    (by decide) (by decide) (by decide) (by decide)

/-- **C6.** On every successful parse, the edge list is exactly the
per-line contributions in input order — for each line with at least three
tokens, one edge `(index source, index target)` per target, in target
order — the label list is the matching per-line relation labels, and the
total edge count is the sum over lines of the number of targets
(`tokens[2:]`, empty for lines with fewer than three tokens). -/
theorem read_sif_one_edge_per_target
    (enum : List String → List String) (d : Bool) (content : String) (g : Graph)
    (hg : read_sif enum d content = .ok g) :
    g.edges = ((pyLines content).flatMap lineStrEdges).map
        (fun p => (g.names.indexOf p.1, g.names.indexOf p.2)) ∧
    g.interactions = (pyLines content).flatMap lineLabels ∧
    g.edges.length = ((pyLines content).map (fun l => (lineTargets l).length)).sum := by
  rcases read_sif_ok_iff.mp hg with ⟨acc, hacc, rfl⟩
  obtain ⟨he, hi, _, _⟩ := sifAccOf_spec hacc
  refine ⟨?_, ?_, ?_⟩
  · rw [mkGraph_edges, mkGraph_names, he]
  · rw [mkGraph_interactions, hi]
  · rw [mkGraph_edges, List.length_map, he, List.length_flatMap]
    congr 1
    exact List.map_congr_left (fun l _ => lineStrEdges_length l)

theorem read_sif_one_edge_per_target_witness :
    (⟨true, 3, ["A", "B", "C"], [(0, 1), (0, 2)], ["pp", "pp"]⟩ : Graph).edges =
      ((pyLines "A pp B C").flatMap lineStrEdges).map
        (fun p => ((["A", "B", "C"] : List String).indexOf p.1,
                   (["A", "B", "C"] : List String).indexOf p.2)) ∧
    (⟨true, 3, ["A", "B", "C"], [(0, 1), (0, 2)], ["pp", "pp"]⟩ : Graph).interactions =
      (pyLines "A pp B C").flatMap lineLabels ∧
    (⟨true, 3, ["A", "B", "C"], [(0, 1), (0, 2)], ["pp", "pp"]⟩ : Graph).edges.length =
      ((pyLines "A pp B C").map (fun l => (lineTargets l).length)).sum :=
  read_sif_one_edge_per_target id true "A pp B C"
    ⟨true, 3, ["A", "B", "C"], [(0, 1), (0, 2)], ["pp", "pp"]⟩ rfl

/-- **C7 counterexample.** The claim says text with zero parsable records
succeeds with an empty graph.  The single blank line of `"\n"` tokenizes to
zero tokens, which no branch of the loop skips: `items[0]` at graph.py
line 87 raises `IndexError`, so the parse fails. -/
theorem read_sif_whitespace_only_input_cex :
    tokenize "\n" = [] ∧
    read_sif id true "\n" = Except.error PyError.indexError :=
  ⟨rfl, rfl⟩

/-- **C7 amended.** Parsing empty (zero-length) SIF text succeeds and
returns a graph with zero vertices and zero edges, for every admissible set
enumeration and either directedness; but an input with zero parsable
records that contains a blank or whitespace-only line raises `IndexError`
instead. -/
theorem read_sif_empty_text_empty_graph
    (enum : List String → List String) (henum : ∀ l, List.Perm (enum l) l)
    (d : Bool) :
    read_sif enum d "" = Except.ok ⟨d, 0, [], [], []⟩ := by
  have h0 : enum [] = [] := (henum []).eq_nil
  have hacc : sifAccOf "" = Except.ok ⟨[], [], [], none⟩ := rfl
  rw [read_sif, hacc]
  simp [Except.map, mkGraph, h0]

theorem read_sif_empty_text_empty_graph_witness :
    read_sif id true "" = Except.ok ⟨true, 0, [], [], []⟩ :=
  read_sif_empty_text_empty_graph id (fun l => List.Perm.refl l) true

/-- **C9.** At the end of every successful parse the interaction-label list
and the edge list have equal length, both in the accumulated state (each
line extends both by its number of targets) and in the returned graph, so
edge `i` carries exactly the label at position `i`. -/
theorem read_sif_labels_count_equals_edges
    (enum : List String → List String) (d : Bool) (content : String)
    (acc : SifAcc) (g : Graph)
    (hacc : sifAccOf content = .ok acc)
    (hg : read_sif enum d content = .ok g) :
    acc.interactions.length = acc.edges.length ∧
    g.interactions.length = g.edges.length := by
  obtain ⟨he, hi, _, _⟩ := sifAccOf_spec hacc
  have hlen : acc.interactions.length = acc.edges.length := by
    rw [he, hi, List.length_flatMap, List.length_flatMap]
    congr 1
    exact List.map_congr_left
      (fun l _ => (lineLabels_length l).trans (lineStrEdges_length l).symm)
  rcases read_sif_ok_iff.mp hg with ⟨acc2, hacc2, rfl⟩
  rw [hacc, Except.ok.injEq] at hacc2
  subst hacc2
  refine ⟨hlen, ?_⟩
  rw [mkGraph_interactions, mkGraph_edges, List.length_map]
  exact hlen

theorem read_sif_labels_count_equals_edges_witness :
    (["pp", "pp"] : List String).length =
      ([("A", "B"), ("A", "C")] : List (String × String)).length ∧
    (["pp", "pp"] : List String).length =
      ([(0, 1), (0, 2)] : List (Nat × Nat)).length :=
  read_sif_labels_count_equals_edges id true "A pp B C"
    ⟨["A", "B", "C"], [("A", "B"), ("A", "C")], ["pp", "pp"], some "A"⟩
    ⟨true, 3, ["A", "B", "C"], [(0, 1), (0, 2)], ["pp", "pp"]⟩ rfl rfl

/-- **C10.** Edge endpoints are resolved by name after the full input pass:
for every admissible set enumeration and every edge built from the token
pair recorded at position `k`, the returned edge is the pair of `indexOf`
positions of those tokens in the vertex name list, and the name stored at
each of those positions is the original token — regardless of the order in
which the enumeration arranged the vertices. -/
theorem read_sif_edge_endpoints_resolve_to_tokens
    (enum : List String → List String) (henum : ∀ l, List.Perm (enum l) l)
    (d : Bool) (content : String) (acc : SifAcc) (g : Graph)
    (hacc : sifAccOf content = .ok acc)
    (hg : read_sif enum d content = .ok g)
    (k : Nat) (hk : k < acc.edges.length) :
    g.edges[k]? = some (g.names.indexOf (acc.edges.get ⟨k, hk⟩).1,
                        g.names.indexOf (acc.edges.get ⟨k, hk⟩).2) ∧
    g.names[g.names.indexOf (acc.edges.get ⟨k, hk⟩).1]? =
      some (acc.edges.get ⟨k, hk⟩).1 ∧
    g.names[g.names.indexOf (acc.edges.get ⟨k, hk⟩).2]? =
      some (acc.edges.get ⟨k, hk⟩).2 := by
  rcases read_sif_ok_iff.mp hg with ⟨acc2, hacc2, rfl⟩
  rw [hacc, Except.ok.injEq] at hacc2
  subst hacc2
  obtain ⟨_, _, _, hedge⟩ := sifAccOf_spec hacc
  have hmem : acc.edges.get ⟨k, hk⟩ ∈ acc.edges := List.get_mem acc.edges k hk
  have h1 : (acc.edges.get ⟨k, hk⟩).1 ∈ enum acc.nodes :=
    ((henum acc.nodes).mem_iff).mpr (hedge _ hmem).1
  have h2 : (acc.edges.get ⟨k, hk⟩).2 ∈ enum acc.nodes :=
    ((henum acc.nodes).mem_iff).mpr (hedge _ hmem).2
  refine ⟨?_, ?_, ?_⟩
  · rw [mkGraph_edges, mkGraph_names, List.getElem?_map,
      List.getElem?_eq_getElem hk]
    rfl
  · rw [mkGraph_names]
    exact List.getElem?_indexOf h1
  · rw [mkGraph_names]
    exact List.getElem?_indexOf h2

theorem read_sif_edge_endpoints_resolve_to_tokens_witness :
    (([(0, 1)] : List (Nat × Nat))[0]?) =
      some ((["A", "B"] : List String).indexOf "A",
            (["A", "B"] : List String).indexOf "B") ∧
    ((["A", "B"] : List String)[(["A", "B"] : List String).indexOf "A"]?) =
      some "A" ∧
    ((["A", "B"] : List String)[(["A", "B"] : List String).indexOf "B"]?) =
      some "B" :=
  read_sif_edge_endpoints_resolve_to_tokens id (fun l => List.Perm.refl l)
    true "A pp B" ⟨["A", "B"], [("A", "B")], ["pp"], some "A"⟩
    ⟨true, 2, ["A", "B"], [(0, 1)], ["pp"]⟩ rfl rfl 0 (by decide)

end Unipax
